import Mathlib

/-!
Shallow embedding of the axis-range heuristic and plotting glue in
`src/plot.C` (repository LongExerciseSusyTopTag), together with theorems
checking the natural-language specification against the code.

Conventions of the embedding:
* doubles are modelled by `ℚ` where the code only adds, multiplies,
  divides and compares, and by `ℝ` where it calls `log10`/`pow`;
* a histogram series is a list of `(value, uncertainty)` pairs, the bin
  with ROOT index `i` (1-based) sitting at list position `i - 1`;
* the C literals `9e99`, `-9e99` and `1e-10` are kept verbatim;
* `static_cast<int>` on a double is truncation toward zero (`ratTrunc`);
* the `TFile`/`TH1` store behind `retrieveHistogram` is an explicit
  function argument and `printf` output is an explicit message list;
* `std::string` is modelled by `List Char`; the out-of-bounds write
  `name[npos]` performed by the do-while loop in `Plotter::plot` is
  modelled by returning `none`.
-/

open scoped Classical

/-- Bin value used throughout `smartMax` (plot.C lines 26-28): the bin
content, plus the bin error when the `error` flag is set. -/
def binVal (error : Bool) (b : ℚ × ℚ) : ℚ :=
  if error then b.1 + b.2 else b.1

/-- The loop of `smartMax` (plot.C lines 24-32), with state
`(min, max, pThreshMax)` and ROOT bin index `i` counting from 1.
Note the `else if` on line 30: a bin that strictly exceeds the running
max is not offered to the min computation. -/
def smartMaxLoop (error : Bool) (thr : ℤ) : List (ℚ × ℚ) → ℤ → ℚ × ℚ × ℚ → ℚ × ℚ × ℚ
  | [], _, st => st
  | b :: rest, i, (mn, mx, pt) =>
    smartMaxLoop error thr rest (i + 1)
      (if ¬ binVal error b > mx ∧ binVal error b > 1e-10 ∧ binVal error b < mn then binVal error b else mn,
       if binVal error b > mx then binVal error b else mx,
       if i ≥ thr ∧ binVal error b > pt then binVal error b else pt)

/-- Truncation toward zero, the semantics of `static_cast<int>` on a
double (plot.C line 22). -/
def ratTrunc (q : ℚ) : ℤ :=
  if 0 ≤ q then ⌊q⌋ else ⌈q⌉

/-- The bin-index threshold of `smartMax` (plot.C line 22):
`int(N * (legX1 - leftMargin) / ((1 - rightMargin) - leftMargin))`. -/
def thresholdOf (n : ℕ) (legX1 pLeft pRight : ℚ) : ℤ :=
  ratTrunc ((n : ℚ) * (legX1 - pLeft) / ((1 - pRight) - pLeft))

/-- One series scan of `smartMax` before the merge into the running
accumulator: the loop started from the local initial values
`min = 9e99`, `max = -9e99`, `pThreshMax = -9e99` (plot.C lines 19-21). -/
def smartMaxLocal (error : Bool) (bins : List (ℚ × ℚ)) (thr : ℤ) : ℚ × ℚ × ℚ :=
  smartMaxLoop error thr bins 1 (9e99, -9e99, -9e99)

/-- Full `smartMax` (plot.C lines 16-37): scan one series and merge the
local results into the running `(gmin, gmax, gpThreshMax)` accumulator
(lines 34-36). -/
def smartMax (bins : List (ℚ × ℚ)) (legX1 pLeft pRight : ℚ) (error : Bool)
    (g : ℚ × ℚ × ℚ) : ℚ × ℚ × ℚ :=
  let st := smartMaxLocal error bins (thresholdOf bins.length legX1 pLeft pRight)
  (min g.1 st.1, max g.2.1 st.2.1, max g.2.2 st.2.2)

/-- Arguments of one `smartMax` call inside `Plotter::plot`. -/
structure SmartMaxCall where
  error : Bool
  bins : List (ℚ × ℚ)
  legX1 : ℚ
  pLeft : ℚ
  pRight : ℚ

/-- Threading the `(min, max, lmax)` accumulator through a sequence of
`smartMax` calls, as `Plotter::plot` does at lines 206, 219 and 231. -/
def foldSmartMax (g : ℚ × ℚ × ℚ) (calls : List SmartMaxCall) : ℚ × ℚ × ℚ :=
  calls.foldl (fun acc c => smartMax c.bins c.legX1 c.pLeft c.pRight c.error acc) g

/-- The accumulator of `Plotter::plot` started from its initial values
`min = 0.0`, `max = 0.0`, `lmax = 0.0` (plot.C lines 176-178). -/
def runSmartMax (calls : List SmartMaxCall) : ℚ × ℚ × ℚ :=
  foldSmartMax (0, 0, 0) calls

/-- The bin values the threshold scan of `smartMax` keeps: those whose
1-based index `i` satisfies `i >= threshold` (plot.C line 31). -/
def zoneList (thr : ℤ) : ℤ → List ℚ → List ℚ
  | _, [] => []
  | i, b :: r => if i ≥ thr then b :: zoneList thr (i + 1) r else zoneList thr (i + 1) r

/-- The bin values that reach the `else` branch of plot.C line 30: bins
that do not strictly exceed the running maximum of the bins before them
(the running maximum starts at `-9e99`). -/
def nonRecordBins (m : ℚ) : List ℚ → List ℚ
  | [] => []
  | b :: r => if b > m then nonRecordBins b r else b :: nonRecordBins m r

/-- Modelled from the spec: the per-series minimum as section 4.1 words
it, namely the smallest bin value strictly greater than 1e-10, left at
the sentinel 9e99 when no bin qualifies. -/
def specSeriesMin (vals : List ℚ) : ℚ :=
  (vals.filter (fun b => 1e-10 < b)).foldl min 9e99

/-- The log-scale floor expression of plot.C line 253:
`std::min(0.2, std::max(0.2, 0.05 * min))`. The doubles of the log-scale
branch are modelled by `ℝ` because the branch takes logarithms. -/
def locMinR (minv : ℝ) : ℝ :=
  min 0.2 (max 0.2 (0.05 * minv))

/-- The collision decade `legMin` of the log-scale branch (plot.C lines
254-255): `legSpan + log10(locMin)` with
`legSpan = (log10(3*max) - log10(locMin)) * (legY1 - bottomMargin) /
((1 - topMargin) - bottomMargin)`, where `legY1` is what the code passes,
namely `leg->GetY1()`, the legend's bottom edge. -/
noncomputable def legMinOf (minv maxv legY1 bm tm : ℝ) : ℝ :=
  (Real.logb 10 (3 * maxv) - Real.logb 10 (locMinR minv)) * (legY1 - bm) / ((1 - tm) - bm)
    + Real.logb 10 (locMinR minv)

/-- The log-scale y-range of `Plotter::plot` (plot.C lines 251-261):
the pair passed to `SetRangeUser`, i.e. `(locMin, 10 * max)` after the
conditional exponential rescale of `max`. -/
noncomputable def plotLogYRange (minv maxv lmax legY1 bm tm : ℝ) : ℝ × ℝ :=
  (locMinR minv,
   10 * (if legMinOf minv maxv legY1 bm tm < Real.logb 10 lmax then
           (maxv / locMinR minv) ^
               ((Real.logb 10 lmax - Real.logb 10 (locMinR minv)) /
                 (legMinOf minv maxv legY1 bm tm - Real.logb 10 (locMinR minv)))
             * locMinR minv
         else maxv))

/-- The linear-scale y-range of `Plotter::plot` (plot.C lines 263-269):
`locMin = 0.0`, `legMin = (1.2*max - locMin) * (legY1 - bottomMargin) /
((1 - topMargin) - bottomMargin)`; if `lmax > legMin` then
`max *= (lmax - locMin) / (legMin - locMin)`; range `(0.0, max * 1.3)`.
`legY1` is what the code passes, `leg->GetY1()`, the legend's bottom
edge. -/
def plotLinearYRange (maxv lmax legY1 bm tm : ℚ) : ℚ × ℚ :=
  let locMin : ℚ := 0
  let legMin := (1.2 * maxv - locMin) * (legY1 - bm) / ((1 - tm) - bm)
  let maxv2 := if legMin < lmax then maxv * ((lmax - locMin) / (legMin - locMin)) else maxv
  (0, maxv2 * 1.3)

/-- Modelled from the spec: the linear-branch formula as section 4.1
words it, a function of the legend coordinate named `legendTop` there:
`legendMin = 1.2*max * (legendTop - bottom)/((1-top)-bottom)`; if
`zoneMax > legendMin`, rescale `max *= zoneMax/legendMin`; final bounds
`(0, 1.3 * max)`. -/
def linearSpecRange (maxv lmax legTop bm tm : ℚ) : ℚ × ℚ :=
  let legMin := 1.2 * maxv * (legTop - bm) / ((1 - tm) - bm)
  let maxv2 := if legMin < lmax then maxv * (lmax / legMin) else maxv
  (0, 1.3 * maxv2)

/-- The mutable settings of a `TH1` that `retrieveHistogram` touches. -/
structure TH1m where
  lineColor : ℤ
  lineWidth : ℤ
  markerColor : ℤ
  markerStyle : ℤ
  rebinGroup : ℤ
deriving DecidableEq

/-- The fields of `histInfo` (plot.C lines 40-45); `h` is the stored
histogram handle, `none` standing for a null `shared_ptr`. -/
structure histInfo where
  legEntry : String
  histFile : String
  histName : String
  drawOptions : String
  color : ℤ
  rebin : ℤ
  h : Option TH1m
deriving DecidableEq

/-- `histInfo::retrieveHistogram` (plot.C lines 48-83). The external
store is the argument `openFile` (a file name yields `none` when
`TFile::Open` fails, otherwise a lookup from histogram names to
histograms); the returned list carries the `printf` diagnostics. On the
success path the code sets the line color, line width 3, marker color
and marker style 20, and rebins when `rebin > 0`. -/
def retrieveHistogram (openFile : String → Option (String → Option TH1m))
    (info : histInfo) : histInfo × List String :=
  match openFile info.histFile with
  | none =>
    (⟨info.legEntry, info.histFile, info.histName, info.drawOptions, info.color, info.rebin, none⟩,
     ["File \"" ++ info.histFile ++ "\" could not be opened!!!"])
  | some getHist =>
    match getHist info.histName with
    | none =>
      (⟨info.legEntry, info.histFile, info.histName, info.drawOptions, info.color, info.rebin, none⟩,
       ["Histogram \"" ++ info.histName ++ "\" could not be found in file \"" ++ info.histFile ++ "\"!!!"])
    | some h0 =>
      (⟨info.legEntry, info.histFile, info.histName, info.drawOptions, info.color, info.rebin,
        some ⟨info.color, 3, info.color, 20, if info.rebin > 0 then info.rebin else h0.rebinGroup⟩⟩,
       [])

/-- Helper for `std::string::find("/", start)`: index scan carrying the
absolute position `k` of the head of `l`. -/
def findSlashAux : List Char → ℕ → Option ℕ
  | [], _ => none
  | c :: r, k => if c = '/' then some k else findSlashAux r (k + 1)

/-- `name.find("/", start)` on the `List Char` model: `none` is `npos`. -/
def findFrom (s : List Char) (start : ℕ) : Option ℕ :=
  findSlashAux (s.drop start) start

/-- All path separators replaced by underscores, the intended effect of
the do-while loop of plot.C lines 370-376. -/
def mapRepl (s : List Char) : List Char :=
  s.map (fun c => if c = '/' then '_' else c)

theorem findSlashAux_some_bounds : ∀ (l : List Char) (k j : ℕ),
    findSlashAux l k = some j → k ≤ j ∧ j < k + l.length := by
  intro l
  induction l with
  | nil => intro k j h; simp [findSlashAux] at h
  | cons c r ih =>
    intro k j h
    simp only [findSlashAux] at h
    by_cases hc : c = '/'
    · rw [if_pos hc] at h
      obtain rfl : k = j := by injection h
      simp only [List.length_cons]
      omega
    · rw [if_neg hc] at h
      have := ih (k + 1) j h
      simp only [List.length_cons]
      omega

theorem findFrom_some_bounds {s : List Char} {k j : ℕ}
    (h : findFrom s k = some j) : k ≤ j ∧ j < s.length := by
  have hb := findSlashAux_some_bounds (s.drop k) k j h
  have hl : (s.drop k).length = s.length - k := s.length_drop k
  by_cases hk : k ≤ s.length
  · omega
  · exfalso
    have hnil : s.drop k = [] := List.drop_eq_nil_of_le (by omega)
    simp only [findFrom, hnil, findSlashAux] at h
    exact Option.noConfusion h

/-- The do-while body of plot.C lines 372-376, entered at a valid slash
position `i`: write an underscore at `i`, look for the next separator
strictly after `i`, loop while one is found. -/
def underscoreLoop (s : List Char) (i : ℕ) : Option (List Char) :=
  match h : findFrom (s.set i '_') (i + 1) with
  | none => some (s.set i '_')
  | some j => underscoreLoop (s.set i '_') j
termination_by s.length - i
decreasing_by
  have hb := findFrom_some_bounds h
  simp only [List.length_set] at hb ⊢
  omega

/-- The filename computation of plot.C lines 370-377: `pos = find("/")`,
then the do-while. The first loop iteration writes at `pos` before any
test, so a separator-free name makes the code write at `name[npos]`,
out of bounds; the model returns `none` there. -/
def replaceSlashes (s : List Char) : Option (List Char) :=
  match findFrom s 0 with
  | none => none
  | some i => underscoreLoop s i

/-- The image file name handed to `c->Print` (plot.C line 377): the
separator-replaced histogram name suffixed with `.png`. -/
def outputFileName (histName : List Char) : Option (List Char) :=
  (replaceSlashes histName).map (fun n => n ++ (".png".toList))

theorem ite_gt_eq_max (a b : ℚ) : (if b > a then b else a) = max a b := by
  rcases le_or_lt b a with h | h
  · rw [if_neg (not_lt.mpr h), max_eq_left h]
  · rw [if_pos h, max_eq_right h.le]

theorem ite_lt_eq_min (a b : ℚ) : (if b < a then b else a) = min a b := by
  rcases le_or_lt a b with h | h
  · rw [if_neg (not_lt.mpr h), min_eq_left h]
  · rw [if_pos h, min_eq_right h.le]

theorem le_foldl_max (l : List ℚ) : ∀ a : ℚ, a ≤ l.foldl max a := by
  induction l with
  | nil => intro a; exact le_refl a
  | cons x r ih => intro a; exact (le_max_left a x).trans (ih (max a x))

theorem foldl_max_of_mem {l : List ℚ} {b : ℚ} (hb : b ∈ l) : ∀ a : ℚ, b ≤ l.foldl max a := by
  induction l with
  | nil => cases hb
  | cons x r ih =>
    intro a
    rcases List.mem_cons.mp hb with rfl | hmem
    · exact (le_max_right a b).trans (le_foldl_max r (max a b))
    · exact ih hmem (max a x)

theorem foldl_max_cases (l : List ℚ) : ∀ a : ℚ, l.foldl max a = a ∨ l.foldl max a ∈ l := by
  induction l with
  | nil => intro a; exact Or.inl rfl
  | cons x r ih =>
    intro a
    rcases ih (max a x) with h | h
    · rcases max_choice a x with hax | hax
      · exact Or.inl (by rw [List.foldl_cons, h, hax])
      · exact Or.inr (by rw [List.foldl_cons, h, hax]; exact List.mem_cons_self x r)
    · exact Or.inr (List.mem_cons_of_mem x h)

theorem smartMaxLoop_max (error : Bool) (thr : ℤ) : ∀ (bins : List (ℚ × ℚ)) (i : ℤ) (mn mx pt : ℚ),
    (smartMaxLoop error thr bins i (mn, mx, pt)).2.1 = (bins.map (binVal error)).foldl max mx := by
  intro bins
  induction bins with
  | nil => intro i mn mx pt; rfl
  | cons b r ih =>
    intro i mn mx pt
    simp only [smartMaxLoop, List.map_cons, List.foldl_cons]
    rw [ih, ite_gt_eq_max]

theorem smartMaxLoop_pthresh (error : Bool) (thr : ℤ) : ∀ (bins : List (ℚ × ℚ)) (i : ℤ) (mn mx pt : ℚ),
    (smartMaxLoop error thr bins i (mn, mx, pt)).2.2 =
      (zoneList thr i (bins.map (binVal error))).foldl max pt := by
  intro bins
  induction bins with
  | nil => intro i mn mx pt; rfl
  | cons b r ih =>
    intro i mn mx pt
    simp only [smartMaxLoop, List.map_cons, zoneList]
    have hpt : (if i ≥ thr ∧ binVal error b > pt then binVal error b else pt)
        = if i ≥ thr then max pt (binVal error b) else pt := by
      by_cases hi : i ≥ thr
      · rw [if_pos hi, ← ite_gt_eq_max]
        by_cases hgt : binVal error b > pt
        · rw [if_pos ⟨hi, hgt⟩, if_pos hgt]
        · rw [if_neg (by rintro ⟨-, h2⟩; exact hgt h2), if_neg hgt]
      · rw [if_neg (by rintro ⟨h1, -⟩; exact hi h1), if_neg hi]
    rw [hpt]
    by_cases hi : i ≥ thr
    · rw [if_pos hi, if_pos hi, List.foldl_cons, ih]
    · rw [if_neg hi, if_neg hi, ih]

theorem smartMaxLoop_min (error : Bool) (thr : ℤ) : ∀ (bins : List (ℚ × ℚ)) (i : ℤ) (mn mx pt : ℚ),
    (smartMaxLoop error thr bins i (mn, mx, pt)).1 =
      ((nonRecordBins mx (bins.map (binVal error))).filter (fun b => 1e-10 < b)).foldl min mn := by
  intro bins
  induction bins with
  | nil => intro i mn mx pt; rfl
  | cons b r ih =>
    intro i mn mx pt
    simp only [smartMaxLoop, List.map_cons, nonRecordBins]
    by_cases hrec : binVal error b > mx
    · have h1 : (if ¬ binVal error b > mx ∧ binVal error b > 1e-10 ∧ binVal error b < mn
          then binVal error b else mn) = mn := if_neg (by rintro ⟨hn, -⟩; exact hn hrec)
      have h2 : (if binVal error b > mx then binVal error b else mx) = binVal error b := if_pos hrec
      rw [h1, h2, ih, if_pos hrec]
    · have h2 : (if binVal error b > mx then binVal error b else mx) = mx := if_neg hrec
      rw [h2, ih, if_neg hrec]
      by_cases heps : (1e-10 : ℚ) < binVal error b
      · have hmn : (if ¬ binVal error b > mx ∧ binVal error b > 1e-10 ∧ binVal error b < mn
            then binVal error b else mn) = min mn (binVal error b) := by
          rcases lt_or_le (binVal error b) mn with h | h
          · rw [if_pos ⟨hrec, heps, h⟩, min_eq_right h.le]
          · rw [if_neg (by rintro ⟨-, -, hlt⟩; exact absurd hlt (not_lt.mpr h)), min_eq_left h]
        rw [hmn, List.filter_cons_of_pos (by simpa using heps), List.foldl_cons]
      · have hmn : (if ¬ binVal error b > mx ∧ binVal error b > 1e-10 ∧ binVal error b < mn
            then binVal error b else mn) = mn := if_neg (by rintro ⟨-, hgt, -⟩; exact heps hgt)
        rw [hmn, List.filter_cons_of_neg (by simpa using heps)]

/-- C5: for every real value of the overall min, the log-scale floor
expression `min(0.2, max(0.2, 0.05 * min))` of plot.C line 253 evaluates
to exactly 0.2; the apparent dependence on `min` never changes the
result. -/
theorem locMin_floor_constant : ∀ minv : ℝ, locMinR minv = 0.2 :=
  fun _ => min_eq_left (le_max_left _ _)

theorem smartMaxLoop_pt_le (error : Bool) (thr : ℤ) : ∀ (bins : List (ℚ × ℚ)) (i : ℤ) (mn mx pt : ℚ),
    pt ≤ mx →
    (smartMaxLoop error thr bins i (mn, mx, pt)).2.2 ≤ (smartMaxLoop error thr bins i (mn, mx, pt)).2.1 := by
  intro bins
  induction bins with
  | nil => intro i mn mx pt h; exact h
  | cons b r ih =>
    intro i mn mx pt h
    simp only [smartMaxLoop]
    apply ih
    by_cases h1 : i ≥ thr ∧ binVal error b > pt
    · rw [if_pos h1]
      by_cases h2 : binVal error b > mx
      · rw [if_pos h2]
      · rw [if_neg h2]; exact le_of_not_lt h2
    · rw [if_neg h1]
      by_cases h2 : binVal error b > mx
      · rw [if_pos h2]; exact h.trans h2.le
      · rw [if_neg h2]; exact h

theorem smartMaxLocal_pt_le (error : Bool) (bins : List (ℚ × ℚ)) (thr : ℤ) :
    (smartMaxLocal error bins thr).2.2 ≤ (smartMaxLocal error bins thr).2.1 :=
  smartMaxLoop_pt_le error thr bins 1 _ _ _ (le_refl _)

/-- C7: merging per-series results into the running `(min, max, zoneMax)`
accumulator is monotonic: across any sequence of `smartMax` calls, in
any order and from any starting accumulator, the running max and running
zone max never decrease and the running min never increases. -/
theorem smartMax_merge_monotone : ∀ (calls : List SmartMaxCall) (g : ℚ × ℚ × ℚ),
    (foldSmartMax g calls).1 ≤ g.1 ∧ g.2.1 ≤ (foldSmartMax g calls).2.1 ∧
      g.2.2 ≤ (foldSmartMax g calls).2.2 := by
  intro calls
  induction calls with
  | nil => intro g; exact ⟨le_refl _, le_refl _, le_refl _⟩
  | cons c cs ih =>
    intro g
    have hstep : (smartMax c.bins c.legX1 c.pLeft c.pRight c.error g).1 ≤ g.1 ∧
        g.2.1 ≤ (smartMax c.bins c.legX1 c.pLeft c.pRight c.error g).2.1 ∧
        g.2.2 ≤ (smartMax c.bins c.legX1 c.pLeft c.pRight c.error g).2.2 :=
      ⟨min_le_left _ _, le_max_left _ _, le_max_left _ _⟩
    have hrest := ih (smartMax c.bins c.legX1 c.pLeft c.pRight c.error g)
    have hfold : foldSmartMax g (c :: cs) =
        foldSmartMax (smartMax c.bins c.legX1 c.pLeft c.pRight c.error g) cs := rfl
    rw [hfold]
    exact ⟨hrest.1.trans hstep.1, hstep.2.1.trans hrest.2.1, hstep.2.2.trans hrest.2.2⟩

/-- C6: starting from the initial accumulator `(0, 0, 0)` of
`Plotter::plot`, the triple computed by any sequence of `smartMax` calls
satisfies `min <= max` whenever some scanned bin value is strictly
positive, and `legendZoneMax <= max` in every case. -/
theorem runSmartMax_invariants : ∀ calls : List SmartMaxCall,
    ((∃ c ∈ calls, ∃ p ∈ c.bins, 0 < binVal c.error p) →
      (runSmartMax calls).1 ≤ (runSmartMax calls).2.1) ∧
    (runSmartMax calls).2.2 ≤ (runSmartMax calls).2.1 := by
  have key : ∀ (calls : List SmartMaxCall) (g : ℚ × ℚ × ℚ), g.1 ≤ g.2.1 → g.2.2 ≤ g.2.1 →
      (foldSmartMax g calls).1 ≤ (foldSmartMax g calls).2.1 ∧
        (foldSmartMax g calls).2.2 ≤ (foldSmartMax g calls).2.1 := by
    intro calls
    induction calls with
    | nil => intro g h1 h2; exact ⟨h1, h2⟩
    | cons c cs ih =>
      intro g h1 h2
      have hfold : foldSmartMax g (c :: cs) =
          foldSmartMax (smartMax c.bins c.legX1 c.pLeft c.pRight c.error g) cs := rfl
      rw [hfold]
      apply ih
      · exact le_trans (le_trans (min_le_left _ _) h1) (le_max_left _ _)
      · exact max_le_max h2 (smartMaxLocal_pt_le _ _ _)
  intro calls
  exact ⟨fun _ => (key calls (0, 0, 0) (le_refl _) (le_refl _)).1,
    (key calls (0, 0, 0) (le_refl _) (le_refl _)).2⟩

/-- C6 witness: a single call holding one strictly positive bin. -/
theorem runSmartMax_invariants_witness :
    (∃ c ∈ [(⟨true, [(1, 0)], 1/2, 3/25, 3/50⟩ : SmartMaxCall)], ∃ p ∈ c.bins, 0 < binVal c.error p) ∧
    (runSmartMax [(⟨true, [(1, 0)], 1/2, 3/25, 3/50⟩ : SmartMaxCall)]).1 ≤
      (runSmartMax [(⟨true, [(1, 0)], 1/2, 3/25, 3/50⟩ : SmartMaxCall)]).2.1 := by
  have hex : ∃ c ∈ [(⟨true, [(1, 0)], 1/2, 3/25, 3/50⟩ : SmartMaxCall)],
      ∃ p ∈ c.bins, 0 < binVal c.error p :=
    ⟨⟨true, [(1, 0)], 1/2, 3/25, 3/50⟩, by simp, (1, 0), by simp, by norm_num [binVal]⟩
  exact ⟨hex, (runSmartMax_invariants _).1 hex⟩

/-- C2 counterexample: for the one-bin series `[5]` (no uncertainty),
the scan leaves `min` at the sentinel `9e99`, while the claim predicts
the smallest bin value above `1e-10`, namely `5`: the bin `5` sets a new
running max at line 29 of plot.C, so the `else if` of line 30 never
offers it to the min computation. -/
theorem smartMax_min_spec_counterexample :
    (smartMaxLocal false [(5, 0)] 0).1 = 9e99 ∧
    specSeriesMin ([((5 : ℚ), (0 : ℚ))].map (binVal false)) = 5 ∧ (9e99 : ℚ) ≠ 5 := by
  refine ⟨by norm_num [smartMaxLocal, smartMaxLoop, binVal], ?_, by norm_num⟩
  norm_num [specSeriesMin, binVal, List.filter]

/-- C2 (amended): for every series scanned by `smartMax`, the computed
max bounds every bin value and is either a bin value or the `-9e99`
sentinel; the computed min is the smallest value strictly above `1e-10`
among the bins that do not strictly exceed the running maximum of the
bins before them (bins setting a new running max are skipped by the
`else if` of plot.C line 30), and stays at the sentinel `9e99` when no
such bin qualifies. -/
theorem smartMax_scan_minmax : ∀ (error : Bool) (bins : List (ℚ × ℚ)) (thr : ℤ),
    (∀ b ∈ bins.map (binVal error), b ≤ (smartMaxLocal error bins thr).2.1) ∧
    ((smartMaxLocal error bins thr).2.1 = -9e99 ∨
      (smartMaxLocal error bins thr).2.1 ∈ bins.map (binVal error)) ∧
    (smartMaxLocal error bins thr).1 =
      ((nonRecordBins (-9e99) (bins.map (binVal error))).filter (fun b => 1e-10 < b)).foldl min 9e99 := by
  intro error bins thr
  refine ⟨?_, ?_, ?_⟩
  · intro b hb
    rw [smartMaxLocal, smartMaxLoop_max]
    exact foldl_max_of_mem hb _
  · rw [smartMaxLocal, smartMaxLoop_max]
    exact foldl_max_cases _ _
  · rw [smartMaxLocal, smartMaxLoop_min]

/-- C2 witness: the scan max of the series `[5, 3]` bounds the member
bin `3`. -/
theorem smartMax_scan_minmax_witness :
    ((3 : ℚ) ∈ [((5 : ℚ), (0 : ℚ)), (3, 0)].map (binVal false)) ∧
    (3 : ℚ) ≤ (smartMaxLocal false [(5, 0), (3, 0)] 0).2.1 :=
  ⟨by norm_num [binVal], (smartMax_scan_minmax false [(5, 0), (3, 0)] 0).1 3 (by norm_num [binVal])⟩

theorem ratTrunc_nonpos {q : ℚ} (h : q ≤ 0) : ratTrunc q ≤ 0 := by
  rw [ratTrunc]
  split_ifs with h0
  · have hf : ((⌊q⌋ : ℤ) : ℚ) ≤ 0 := (Int.floor_le q).trans h
    exact_mod_cast hf
  · exact Int.ceil_le.mpr (by exact_mod_cast h)

theorem le_ratTrunc {n : ℤ} {q : ℚ} (hn : 0 ≤ n) (h : (n : ℚ) ≤ q) : n ≤ ratTrunc q := by
  rw [ratTrunc, if_pos (le_trans (by exact_mod_cast hn) h)]
  exact Int.le_floor.mpr h

theorem zoneList_all (thr : ℤ) : ∀ (l : List ℚ) (i : ℤ), thr ≤ i → zoneList thr i l = l := by
  intro l
  induction l with
  | nil => intro i _; rfl
  | cons b r ih =>
    intro i h
    simp only [zoneList]
    rw [if_pos h, ih (i + 1) (by omega)]

theorem zoneList_empty (thr : ℤ) : ∀ (l : List ℚ) (i : ℤ), i + (l.length : ℤ) ≤ thr →
    zoneList thr i l = [] := by
  intro l
  induction l with
  | nil => intro i _; rfl
  | cons b r ih =>
    intro i h
    simp only [List.length_cons] at h
    push_cast at h
    simp only [zoneList]
    rw [if_neg (by omega), ih (i + 1) (by omega)]

theorem zoneList_last_eq (thr : ℤ) : ∀ (l : List ℚ) (i : ℤ), i + (l.length : ℤ) = thr + 1 →
    zoneList thr i l = l.drop (l.length - 1) := by
  intro l
  induction l with
  | nil => intro i _; rfl
  | cons b r ih =>
    intro i h
    simp only [List.length_cons] at h
    push_cast at h
    simp only [zoneList]
    cases r with
    | nil =>
      rw [if_pos (by simp at h; omega)]
      simp [zoneList]
    | cons c r2 =>
      rw [if_neg (by simp at h ⊢; omega)]
      have hr := ih (i + 1) (by simp at h ⊢; push_cast; omega)
      rw [hr]
      simp only [List.length_cons, List.drop_succ_cons, Nat.add_sub_cancel]

/-- C3 counterexample: with two bins `[1, 2]`, `leftMargin = 0.12`,
`rightMargin = 0.06` and `legendLeftX = 1 - rightMargin` exactly, the
threshold evaluates to `N = 2`, yet the loop condition `i >= threshold`
of plot.C line 31 still admits the last bin, so the zone maximum is `2`,
not the `-9e99` sentinel the claim predicts. -/
theorem zone_scan_right_margin_counterexample :
    (smartMaxLocal false [(1, 0), (2, 0)] (thresholdOf 2 (1 - 3/50) (3/25) (3/50))).2.2 = 2 ∧
    (2 : ℚ) ≠ -9e99 := by
  constructor
  · norm_num [smartMaxLocal, smartMaxLoop, binVal, thresholdOf, ratTrunc]
  · norm_num

/-- C3 (amended): for a series of `N` bins, when `legendLeftX` is at or
before the pad's left margin the threshold is at most 0 and the zone
scan of `smartMax` includes every bin; when `legendLeftX` is at or
beyond `1 - rightMargin` the threshold is at least `N`, every bin except
possibly the last is excluded, and the scan returns the `-9e99` sentinel
unless the threshold equals `N` exactly (as happens at
`legendLeftX = 1 - rightMargin`), in which case the last bin alone is
scanned. -/
theorem zone_scan_at_margins :
    (∀ (error : Bool) (bins : List (ℚ × ℚ)) (legX1 pLeft pRight : ℚ),
      0 < (1 - pRight) - pLeft → legX1 ≤ pLeft →
      thresholdOf bins.length legX1 pLeft pRight ≤ 0 ∧
      (smartMaxLocal error bins (thresholdOf bins.length legX1 pLeft pRight)).2.2
        = (bins.map (binVal error)).foldl max (-9e99)) ∧
    (∀ (error : Bool) (bins : List (ℚ × ℚ)) (legX1 pLeft pRight : ℚ),
      0 < (1 - pRight) - pLeft → 1 - pRight ≤ legX1 →
      (bins.length : ℤ) ≤ thresholdOf bins.length legX1 pLeft pRight ∧
      (smartMaxLocal error bins (thresholdOf bins.length legX1 pLeft pRight)).2.2
        = if thresholdOf bins.length legX1 pLeft pRight = (bins.length : ℤ)
          then ((bins.map (binVal error)).drop (bins.length - 1)).foldl max (-9e99)
          else -9e99) := by
  constructor
  · intro error bins legX1 pLeft pRight hd hx
    have hnum : ((bins.length : ℚ)) * (legX1 - pLeft) ≤ 0 :=
      mul_nonpos_of_nonneg_of_nonpos (Nat.cast_nonneg _) (by linarith)
    have hthr : thresholdOf bins.length legX1 pLeft pRight ≤ 0 :=
      ratTrunc_nonpos (div_nonpos_of_nonpos_of_nonneg hnum hd.le)
    refine ⟨hthr, ?_⟩
    rw [smartMaxLocal, smartMaxLoop_pthresh, zoneList_all _ _ 1 (by omega)]
  · intro error bins legX1 pLeft pRight hd hx
    have hq : ((bins.length : ℚ)) ≤ (bins.length : ℚ) * (legX1 - pLeft) / ((1 - pRight) - pLeft) := by
      rw [le_div_iff hd]
      exact mul_le_mul_of_nonneg_left (by linarith) (Nat.cast_nonneg _)
    have hthr : (bins.length : ℤ) ≤ thresholdOf bins.length legX1 pLeft pRight := by
      apply le_ratTrunc (Int.ofNat_nonneg _)
      push_cast
      exact hq
    refine ⟨hthr, ?_⟩
    rw [smartMaxLocal, smartMaxLoop_pthresh]
    by_cases he : thresholdOf bins.length legX1 pLeft pRight = (bins.length : ℤ)
    · rw [if_pos he, zoneList_last_eq _ _ 1 (by simp [List.length_map]; omega)]
      simp [List.length_map]
    · rw [if_neg he, zoneList_empty _ _ 1 (by simp [List.length_map]; omega)]
      rfl

/-- C4 counterexample: at the spec's own example (max = 10, zoneMax = 9,
legend box from y1 = 0.56 to y2 = 0.88, margins top 0.08 bottom 0), the
code's linear branch, which uses `leg->GetY1() = 0.56` (the legend's
bottom edge), rescales `max` (legMin = 168/23 < 9) and yields upper
bound 897/56, while the claim's formula evaluated with the legend's top
edge 0.88 does not rescale and yields 13. -/
theorem plotLinear_top_edge_counterexample :
    plotLinearYRange 10 9 (14/25) 0 (2/25) ≠ linearSpecRange 10 9 (22/25) 0 (2/25) := by
  norm_num [plotLinearYRange, linearSpecRange]

/-- C4 (amended): the linear branch satisfies the spec's formula with
the legend coordinate taken to be the legend's bottom edge `y1` (the
value `leg->GetY1()` that plot.C line 266 actually uses), rather than
the legend's top edge: `legendMin = 1.2*max*(y1 - bottom)/((1-top)-bottom)`;
if `zoneMax > legendMin` then `max` is rescaled by exactly
`zoneMax/legendMin`; the final upper bound is `1.3 * max` and the lower
bound is 0. -/
theorem plotLinear_matches_spec_at_bottom_edge :
    ∀ maxv lmax legY1 bm tm : ℚ,
      plotLinearYRange maxv lmax legY1 bm tm = linearSpecRange maxv lmax legY1 bm tm := by
  intro maxv lmax legY1 bm tm
  simp only [plotLinearYRange, linearSpecRange, sub_zero]
  split_ifs with h
  · simp only [Prod.mk.injEq]
    refine ⟨by trivial, by ring⟩
  · simp only [Prod.mk.injEq]
    refine ⟨by trivial, by ring⟩

/-- C8: whenever the input file cannot be opened, or the named histogram
is not found in the file, `retrieveHistogram` prints one diagnostic
message and returns normally, leaving the stored histogram handle null
(plot.C lines 54-59 and 69-73). -/
theorem retrieveHistogram_missing_inputs :
    ∀ (openFile : String → Option (String → Option TH1m)) (info : histInfo),
      (openFile info.histFile = none ∨
        ∃ g, openFile info.histFile = some g ∧ g info.histName = none) →
      (retrieveHistogram openFile info).1.h = none ∧
      (retrieveHistogram openFile info).2.length = 1 := by
  intro openFile info h
  rcases h with h | ⟨g, hg, hn⟩
  · simp [retrieveHistogram, h]
  · simp [retrieveHistogram, hg, hn]

/-- C8 witness: a store with no openable files. -/
theorem retrieveHistogram_missing_inputs_witness :
    (retrieveHistogram (fun _ => none) ⟨"Data", "f.root", "ttbar/HT", "PEX0", 1, -1, none⟩).1.h = none ∧
    (retrieveHistogram (fun _ => none) ⟨"Data", "f.root", "ttbar/HT", "PEX0", 1, -1, none⟩).2.length = 1 :=
  retrieveHistogram_missing_inputs (fun _ => none)
    ⟨"Data", "f.root", "ttbar/HT", "PEX0", 1, -1, none⟩ (Or.inl rfl)

theorem findSlashAux_none_get : ∀ (l : List Char) (k : ℕ), findSlashAux l k = none →
    ∀ d, l.get? d ≠ some '/' := by
  intro l
  induction l with
  | nil => intro k _ d; simp
  | cons c r ih =>
    intro k h d
    simp only [findSlashAux] at h
    by_cases hc : c = '/'
    · rw [if_pos hc] at h
      exact Option.noConfusion h
    · rw [if_neg hc] at h
      cases d with
      | zero =>
        intro heq
        exact hc (by injection heq)
      | succ d => exact ih (k + 1) h d

theorem findSlashAux_eq_none : ∀ (l : List Char) (k : ℕ), '/' ∉ l → findSlashAux l k = none := by
  intro l
  induction l with
  | nil => intro k _; rfl
  | cons c r ih =>
    intro k hm
    simp only [findSlashAux]
    rw [if_neg (fun hc => hm (by rw [← hc]; exact List.mem_cons_self c r)),
      ih (k + 1) (fun hr => hm (List.mem_cons_of_mem c hr))]

theorem findSlashAux_some_get : ∀ (l : List Char) (k j : ℕ), findSlashAux l k = some j →
    l.get? (j - k) = some '/' := by
  intro l
  induction l with
  | nil => intro k j h; exact Option.noConfusion h
  | cons c r ih =>
    intro k j h
    simp only [findSlashAux] at h
    by_cases hc : c = '/'
    · rw [if_pos hc] at h
      obtain rfl : k = j := by injection h
      simp [hc]
    · rw [if_neg hc] at h
      have hb := findSlashAux_some_bounds r (k + 1) j h
      have hd : j - k = (j - (k + 1)) + 1 := by omega
      rw [hd, List.get?_cons_succ]
      exact ih (k + 1) j h

theorem findSlashAux_some_min : ∀ (l : List Char) (k j : ℕ), findSlashAux l k = some j →
    ∀ d, k + d < j → l.get? d ≠ some '/' := by
  intro l
  induction l with
  | nil => intro k j h; exact Option.noConfusion h
  | cons c r ih =>
    intro k j h d hd
    simp only [findSlashAux] at h
    by_cases hc : c = '/'
    · rw [if_pos hc] at h
      obtain rfl : k = j := by injection h
      omega
    · rw [if_neg hc] at h
      cases d with
      | zero =>
        intro heq
        exact hc (by injection heq)
      | succ d => exact ih (k + 1) j h d (by omega)

theorem mapRepl_cons (c : Char) (r : List Char) :
    mapRepl (c :: r) = (if c = '/' then '_' else c) :: mapRepl r := rfl

theorem mapRepl_set : ∀ (s : List Char) (i : ℕ), s.get? i = some '/' →
    mapRepl (s.set i '_') = mapRepl s := by
  intro s
  induction s with
  | nil => intro i h; exact Option.noConfusion h
  | cons c r ih =>
    intro i h
    cases i with
    | zero =>
      obtain rfl : c = '/' := Option.some.inj h
      rw [List.set_cons_zero, mapRepl_cons, mapRepl_cons]
      congr 1
    | succ i =>
      rw [List.set_cons_succ, mapRepl_cons, mapRepl_cons, ih i h]

theorem mapRepl_eq_self : ∀ s : List Char, (∀ m, s.get? m ≠ some '/') → mapRepl s = s := by
  intro s
  induction s with
  | nil => intro _; rfl
  | cons c r ih =>
    intro h
    have hc : ¬ c = '/' := fun hh => h 0 (by rw [hh]; rfl)
    rw [mapRepl_cons, if_neg hc, ih (fun m => h (m + 1))]

theorem underscoreLoop_spec : ∀ (n : ℕ) (s : List Char) (i : ℕ), s.length - i = n →
    i < s.length → (∀ m, m < i → s.get? m ≠ some '/') → s.get? i = some '/' →
    underscoreLoop s i = some (mapRepl s) := by
  intro n
  induction n using Nat.strong_induction_on with
  | _ n ih =>
    intro s i hn hi hmin hslash
    rw [underscoreLoop]
    split
    · rename_i hnone
      have hall : ∀ m, (s.set i '_').get? m ≠ some '/' := by
        intro m
        rcases lt_trichotomy m i with hc | rfl | hc
        · rw [List.get?_set_ne _ _ (by omega)]
          exact hmin m hc
        · rw [List.get?_set_eq_of_lt _ hi]
          intro heq
          exact absurd (by injection heq) (by decide)
        · have hdrop := findSlashAux_none_get ((s.set i '_').drop (i + 1)) (i + 1) hnone (m - (i + 1))
          rw [List.get?_drop] at hdrop
          have hm : (i + 1) + (m - (i + 1)) = m := by omega
          rw [hm] at hdrop
          exact hdrop
      rw [← mapRepl_set s i hslash, mapRepl_eq_self _ hall]
    · rename_i j hsome
      have hb := findFrom_some_bounds hsome
      rw [List.length_set] at hb
      have hmin2 : ∀ m, m < j → (s.set i '_').get? m ≠ some '/' := by
        intro m hmj
        rcases lt_trichotomy m i with hc | rfl | hc
        · rw [List.get?_set_ne _ _ (by omega)]
          exact hmin m hc
        · rw [List.get?_set_eq_of_lt _ hi]
          intro heq
          exact absurd (by injection heq) (by decide)
        · have hd := findSlashAux_some_min ((s.set i '_').drop (i + 1)) (i + 1) j hsome
            (m - (i + 1)) (by omega)
          rw [List.get?_drop] at hd
          have hm : (i + 1) + (m - (i + 1)) = m := by omega
          rw [hm] at hd
          exact hd
      have hslash2 : (s.set i '_').get? j = some '/' := by
        have he := findSlashAux_some_get ((s.set i '_').drop (i + 1)) (i + 1) j hsome
        rw [List.get?_drop] at he
        have hm : (i + 1) + (j - (i + 1)) = j := by omega
        rw [hm] at he
        exact he
      have hrec := ih ((s.set i '_').length - j) (by rw [List.length_set]; omega)
        (s.set i '_') j rfl (by rw [List.length_set]; omega) hmin2 hslash2
      rw [hrec, mapRepl_set s i hslash]

theorem replaceSlashes_eq_mapRepl : ∀ s : List Char, '/' ∈ s →
    replaceSlashes s = some (mapRepl s) := by
  intro s hm
  cases hf : findFrom s 0 with
  | none =>
    exfalso
    obtain ⟨m, hgm⟩ := List.mem_iff_get?.mp hm
    have := findSlashAux_none_get (s.drop 0) 0 hf m
    rw [List.drop_zero] at this
    exact this hgm
  | some i =>
    have hb := findFrom_some_bounds hf
    have hget : s.get? i = some '/' := by
      have := findSlashAux_some_get (s.drop 0) 0 i hf
      rwa [List.drop_zero, Nat.sub_zero] at this
    have hmin : ∀ m, m < i → s.get? m ≠ some '/' := by
      intro m hmi
      have := findSlashAux_some_min (s.drop 0) 0 i hf m (by omega)
      rwa [List.drop_zero] at this
    have := underscoreLoop_spec (s.length - i) s i rfl hb.2 hmin hget
    simp [replaceSlashes, hf, this]

/-- C10: the do-while of plot.C lines 372-376 writes `name[pos] = '_'`
before testing `pos`; on a histogram name containing no `/` the first
`find` returns `npos` and the write is out of bounds (undefined
behavior, `none` in this model), and the replacement is well defined
exactly for names containing at least one `/`. -/
theorem replaceSlashes_none_iff : ∀ s : List Char, replaceSlashes s = none ↔ '/' ∉ s := by
  intro s
  constructor
  · intro h hm
    rw [replaceSlashes_eq_mapRepl s hm] at h
    exact Option.noConfusion h
  · intro hm
    have hf : findFrom s 0 = none := by
      rw [findFrom, List.drop_zero]
      exact findSlashAux_eq_none s 0 hm
    simp [replaceSlashes, hf]

/-- C9 counterexample: the histogram name `nVertices` contains no path
separator, so the filename loop hits the out-of-bounds write `name[npos]`
(`none` in this model) instead of producing `nVertices.png` as the claim
asserts for every name. -/
theorem outputFileName_no_separator_counterexample :
    outputFileName ("nVertices".toList) ≠
      some (mapRepl ("nVertices".toList) ++ (".png".toList)) := by
  decide

/-- C9 (amended): for every histogram name containing at least one path
separator `/`, the output image file written by `plot` is named after
the series path with every `/` replaced by `_` and suffixed `.png`. -/
theorem outputFileName_replaces_separators : ∀ s : List Char, '/' ∈ s →
    outputFileName s = some (mapRepl s ++ (".png".toList)) := by
  intro s hm
  rw [outputFileName, replaceSlashes_eq_mapRepl s hm]
  rfl

/-- C9 witness: the histogram name `ttbar/HT` used by `main`. -/
theorem outputFileName_replaces_separators_witness :
    ('/' ∈ ("ttbar/HT".toList)) ∧
    outputFileName ("ttbar/HT".toList) = some (mapRepl ("ttbar/HT".toList) ++ (".png".toList)) :=
  ⟨by decide, outputFileName_replaces_separators _ (by decide)⟩

theorem legMin_eval : legMinOf 1 100 (14/25) 0 (2/25) =
    (14 * Real.logb 10 300 + 9 * Real.logb 10 0.2) / 23 := by
  have h02 : locMinR 1 = 0.2 := locMin_floor_constant 1
  rw [legMinOf, h02]
  have h3 : (3 : ℝ) * 100 = 300 := by norm_num
  rw [h3]
  field_simp
  ring

theorem log_pow_ineq1 : 14 * Real.log 300 < 23 * Real.log 50 + 9 * Real.log 5 := by
  have hpow : ((300 : ℝ) ^ (14 : ℕ)) < (50 : ℝ) ^ (23 : ℕ) * (5 : ℝ) ^ (9 : ℕ) := by norm_num
  have hlog := Real.log_lt_log (by positivity) hpow
  rw [Real.log_mul (by positivity) (by positivity), Real.log_pow, Real.log_pow, Real.log_pow] at hlog
  push_cast at hlog
  linarith

theorem log_pow_ineq2 : 23 * Real.log 10 + 9 * Real.log 5 < 14 * Real.log 300 := by
  have hpow : ((10 : ℝ) ^ (23 : ℕ)) * (5 : ℝ) ^ (9 : ℕ) < (300 : ℝ) ^ (14 : ℕ) := by norm_num
  have hlog := Real.log_lt_log (by positivity) hpow
  rw [Real.log_mul (by positivity) (by positivity), Real.log_pow, Real.log_pow, Real.log_pow] at hlog
  push_cast at hlog
  linarith

theorem log_point_two : Real.log (0.2 : ℝ) = -Real.log 5 := by
  rw [show (0.2 : ℝ) = 5⁻¹ by norm_num, Real.log_inv]

theorem legMin_lt_logb50 : legMinOf 1 100 (14/25) 0 (2/25) < Real.logb 10 50 := by
  rw [legMin_eval]
  have hl10 : 0 < Real.log 10 := Real.log_pos (by norm_num)
  simp only [Real.logb]
  rw [log_point_two]
  have key : (14 * Real.log 300 - 9 * Real.log 5) / 23 < Real.log 50 := by
    rw [div_lt_iff (by norm_num : (0 : ℝ) < 23)]
    nlinarith [log_pow_ineq1]
  have heq : (14 * (Real.log 300 / Real.log 10) + 9 * (-Real.log 5 / Real.log 10)) / 23
      = ((14 * Real.log 300 - 9 * Real.log 5) / 23) / Real.log 10 := by ring
  rw [heq, div_lt_div_iff_of_pos_right hl10]
  exact key

theorem one_le_legMin : Real.logb 10 10 ≤ legMinOf 1 100 (14/25) 0 (2/25) := by
  rw [legMin_eval]
  have hl10 : 0 < Real.log 10 := Real.log_pos (by norm_num)
  simp only [Real.logb]
  rw [log_point_two]
  have key : Real.log 10 ≤ (14 * Real.log 300 - 9 * Real.log 5) / 23 := by
    rw [le_div_iff (by norm_num : (0 : ℝ) < 23)]
    nlinarith [log_pow_ineq2]
  have heq : (14 * (Real.log 300 / Real.log 10) + 9 * (-Real.log 5 / Real.log 10)) / 23
      = ((14 * Real.log 300 - 9 * Real.log 5) / 23) / Real.log 10 := by ring
  rw [heq, div_le_div_iff_of_pos_right hl10]
  exact key

/-- C1 counterexample: at min=1, max=100, zoneMax=50, legend box from
y=0.56 to y=0.88 and margins top 0.08 bottom 0, the code's trigger
condition `log10(lmax) > legMin` of plot.C line 256 holds, because
`legMin` is computed from the legend's bottom edge `leg->GetY1() = 0.56`
(legMin ≈ 1.234 < log10 50 ≈ 1.699); the rescale IS performed and the
returned upper bound is strictly greater than `10 * max = 1000`. -/
theorem plotLog_example_counterexample :
    legMinOf 1 100 (14/25) 0 (2/25) < Real.logb 10 50 ∧
    (plotLogYRange 1 100 50 (14/25) 0 (2/25)).2 ≠ 1000 := by
  refine ⟨legMin_lt_logb50, ?_⟩
  have htrig := legMin_lt_logb50
  have hS : 0 < legMinOf 1 100 (14/25) 0 (2/25) - Real.logb 10 (0.2 : ℝ) := by
    rw [legMin_eval]
    have hmono : Real.logb 10 (0.2 : ℝ) < Real.logb 10 300 :=
      Real.logb_lt_logb (by norm_num) (by norm_num) (by norm_num)
    linarith
  have hscale : 1 < (Real.logb 10 50 - Real.logb 10 (0.2 : ℝ)) /
      (legMinOf 1 100 (14/25) 0 (2/25) - Real.logb 10 (0.2 : ℝ)) :=
    (one_lt_div hS).mpr (by linarith)
  have hpow : (500 : ℝ) < (500 : ℝ) ^ ((Real.logb 10 50 - Real.logb 10 (0.2 : ℝ)) /
      (legMinOf 1 100 (14/25) 0 (2/25) - Real.logb 10 (0.2 : ℝ))) := by
    have := (Real.rpow_lt_rpow_left_iff (by norm_num : (1 : ℝ) < 500)).mpr hscale
    rwa [Real.rpow_one] at this
  simp only [plotLogYRange]
  rw [if_pos htrig, locMin_floor_constant]
  have h500 : (100 : ℝ) / 0.2 = 500 := by norm_num
  rw [h500]
  have hgt : (1000 : ℝ) < 10 * ((500 : ℝ) ^ ((Real.logb 10 50 - Real.logb 10 (0.2 : ℝ)) /
      (legMinOf 1 100 (14/25) 0 (2/25) - Real.logb 10 (0.2 : ℝ))) * 0.2) := by
    nlinarith [hpow]
  exact ne_of_gt hgt

/-- C1 (amended): in the log-scale branch, whenever the zone maximum
stays below the legend's collision decade computed from the legend's
BOTTOM edge `y1` (that is, `log10(zoneMax) <= legMin`), no rescale is
triggered and the returned axis upper bound equals `10 * max`; in
particular, for min=1, max=100, legend bottom y=0.56, top margin 0.08,
bottom margin 0, the collision decade is about 1.234, so zoneMax=10
(rather than the claimed zoneMax=50, which does trigger the rescale)
leaves the rescale untriggered and the upper bound is exactly 1000. -/
theorem plotLog_noRescale_bound :
    (∀ minv maxv lmax legY1 bm tm : ℝ,
      Real.logb 10 lmax ≤ legMinOf minv maxv legY1 bm tm →
      (plotLogYRange minv maxv lmax legY1 bm tm).2 = 10 * maxv) ∧
    (plotLogYRange 1 100 10 (14/25) 0 (2/25)).2 = 1000 := by
  have hgen : ∀ minv maxv lmax legY1 bm tm : ℝ,
      Real.logb 10 lmax ≤ legMinOf minv maxv legY1 bm tm →
      (plotLogYRange minv maxv lmax legY1 bm tm).2 = 10 * maxv := by
    intro minv maxv lmax legY1 bm tm h
    simp only [plotLogYRange]
    rw [if_neg (not_lt.mpr h)]
  refine ⟨hgen, ?_⟩
  rw [hgen 1 100 10 (14/25) 0 (2/25) one_le_legMin]
  norm_num

/-- C1 witness: the no-rescale branch applied at the amended concrete
inputs. -/
theorem plotLog_noRescale_bound_witness :
    Real.logb 10 10 ≤ legMinOf 1 100 (14/25) 0 (2/25) ∧
    (plotLogYRange 1 100 10 (14/25) 0 (2/25)).2 = 10 * 100 :=
  ⟨one_le_legMin, plotLog_noRescale_bound.1 1 100 10 (14/25) 0 (2/25) one_le_legMin⟩

/-- C3 witness: one bin, legend left edge 0.1 at or before the left
margin 0.12, margins right 0.06. -/
theorem zone_scan_at_margins_witness :
    (0 < (1 - (3/50 : ℚ)) - 3/25) ∧ ((1/10 : ℚ) ≤ 3/25) ∧
    (thresholdOf [((1 : ℚ), (0 : ℚ))].length (1/10) (3/25) (3/50) ≤ 0 ∧
      (smartMaxLocal false [((1 : ℚ), (0 : ℚ))]
          (thresholdOf [((1 : ℚ), (0 : ℚ))].length (1/10) (3/25) (3/50))).2.2
        = ([((1 : ℚ), (0 : ℚ))].map (binVal false)).foldl max (-9e99)) :=
  ⟨by norm_num, by norm_num,
    zone_scan_at_margins.1 false [((1 : ℚ), (0 : ℚ))] (1/10) (3/25) (3/50)
      (by norm_num) (by norm_num)⟩
